import Mathlib

/-!
Verification of the real-time sampling and attribution engine of the
ryzen_managment_linux repository against its natural-language specification.

The development shallowly embeds the relevant C++ code:
* `calculate_trimmed_mean` from src/reader/stats_utils.hpp (floats as ℚ),
* `EyeDiagramStorage` and its `clear` from src/reader/eye_diagram.{hpp,cpp},
* `EyeCapturer::process_sample` from src/reader/eye_capturer.cpp,
* the processing loop of `GuiRunner::run_processing_thread`
  from src/reader/gui_runner.cpp (timestamps as ℤ nanoseconds),
* `PmTableReader`'s constructor from src/reader/pm_table_reader.cpp,
* `worker_thread_func` from src/reader/measure.cpp,
* `AnalysisManager::update_or_insert_correlation` and the strength formula of
  `run_correlation_analysis` from
  src/ryzen_pm_table_moonitor/src/analysis_manager.cpp.

Floating point values are modelled as exact rationals, timestamps as integer
nanosecond counts; `std::chrono::duration_cast` to milliseconds truncates
toward zero, which is `Int.tdiv`.
-/

/-! ### Small list helpers (std::ranges::min_element / max_element on a
non-empty range, with an unused default for the empty case) -/

/-- Minimum of a list of values, 0 for the empty list (the code only calls
min_element on non-empty bins). -/
def listMin : List ℚ → ℚ
  | [] => 0
  | x :: xs => xs.foldl min x

/-- Maximum of a list of values, 0 for the empty list. -/
def listMax : List ℚ → ℚ
  | [] => 0
  | x :: xs => xs.foldl max x

theorem foldl_min_le_init (xs : List ℚ) (a : ℚ) : xs.foldl min a ≤ a := by
  induction xs generalizing a with
  | nil => simp
  | cons x xs ih =>
      calc (x :: xs).foldl min a = xs.foldl min (min a x) := rfl
        _ ≤ min a x := ih _
        _ ≤ a := min_le_left _ _

theorem le_foldl_max_init (xs : List ℚ) (a : ℚ) : a ≤ xs.foldl max a := by
  induction xs generalizing a with
  | nil => simp
  | cons x xs ih =>
      calc a ≤ max a x := le_max_left _ _
        _ ≤ xs.foldl max (max a x) := ih _
        _ = (x :: xs).foldl max a := rfl

theorem foldl_min_mono (ws : List ℚ) {a b : ℚ} (hab : a ≤ b) :
    ws.foldl min a ≤ ws.foldl min b := by
  induction ws generalizing a b with
  | nil => simpa using hab
  | cons w ws ihw => exact ihw (min_le_min hab le_rfl)

theorem foldl_max_mono (ws : List ℚ) {a b : ℚ} (hab : a ≤ b) :
    ws.foldl max a ≤ ws.foldl max b := by
  induction ws generalizing a b with
  | nil => simpa using hab
  | cons w ws ihw => exact ihw (max_le_max hab le_rfl)

theorem listMin_le_of_mem {l : List ℚ} {x : ℚ} (hx : x ∈ l) : listMin l ≤ x := by
  induction l with
  | nil => cases hx
  | cons y ys ih =>
      rcases List.mem_cons.mp hx with h | h
      · subst h
        exact foldl_min_le_init ys x
      · cases ys with
        | nil => cases h
        | cons z zs =>
            have h1 : listMin (z :: zs) ≤ x := ih h
            have h2 : zs.foldl min (min y z) ≤ zs.foldl min z :=
              foldl_min_mono zs (min_le_right _ _)
            calc listMin (y :: z :: zs) = zs.foldl min (min y z) := rfl
              _ ≤ zs.foldl min z := h2
              _ = listMin (z :: zs) := rfl
              _ ≤ x := h1

theorem le_listMax_of_mem {l : List ℚ} {x : ℚ} (hx : x ∈ l) : x ≤ listMax l := by
  induction l with
  | nil => cases hx
  | cons y ys ih =>
      rcases List.mem_cons.mp hx with h | h
      · subst h
        exact le_foldl_max_init ys x
      · cases ys with
        | nil => cases h
        | cons z zs =>
            have h1 : x ≤ listMax (z :: zs) := ih h
            have h2 : zs.foldl max z ≤ zs.foldl max (max y z) :=
              foldl_max_mono zs (le_max_right _ _)
            calc x ≤ listMax (z :: zs) := h1
              _ = zs.foldl max z := rfl
              _ ≤ zs.foldl max (max y z) := h2
              _ = listMax (y :: z :: zs) := rfl

/-! ### Bounds on the mean of a list -/

theorem mul_length_le_sum {l : List ℚ} {a : ℚ} (h : ∀ x ∈ l, a ≤ x) :
    a * l.length ≤ l.sum := by
  induction l with
  | nil => simp
  | cons x xs ih =>
      have hx : a ≤ x := h x (List.mem_cons_self x xs)
      have hxs : a * xs.length ≤ xs.sum := ih fun y hy => h y (List.mem_cons_of_mem _ hy)
      have : a * ((x :: xs).length : ℚ) = a + a * xs.length := by
        push_cast [List.length_cons]
        ring
      rw [this, List.sum_cons]
      linarith

theorem sum_le_mul_length {l : List ℚ} {b : ℚ} (h : ∀ x ∈ l, x ≤ b) :
    l.sum ≤ b * l.length := by
  induction l with
  | nil => simp
  | cons x xs ih =>
      have hx : x ≤ b := h x (List.mem_cons_self x xs)
      have hxs : xs.sum ≤ b * xs.length := ih fun y hy => h y (List.mem_cons_of_mem _ hy)
      have : b * ((x :: xs).length : ℚ) = b + b * xs.length := by
        push_cast [List.length_cons]
        ring
      rw [this, List.sum_cons]
      linarith

theorem mean_mem_Icc {l : List ℚ} {a b : ℚ} (hne : l ≠ [])
    (hlo : ∀ x ∈ l, a ≤ x) (hhi : ∀ x ∈ l, x ≤ b) :
    a ≤ l.sum / l.length ∧ l.sum / l.length ≤ b := by
  have hlen : 0 < (l.length : ℚ) := by
    have : 0 < l.length := List.length_pos.mpr hne
    exact_mod_cast this
  constructor
  · rw [le_div_iff₀ hlen]
    exact mul_length_le_sum hlo
  · rw [div_le_iff₀ hlen]
    exact sum_le_mul_length hhi

/-! ### calculate_trimmed_mean (src/reader/stats_utils.hpp) -/

/-- The sorted copy the code makes with std::ranges::sort.  Any comparison
sort yields the same list over a linear order, so we use insertion sort,
which computes by rfl. -/
def sortFloats (l : List ℚ) : List ℚ := List.insertionSort (· ≤ ·) l

/-- Shallow embedding of calculate_trimmed_mean from src/reader/stats_utils.hpp.
Floats are modelled as ℚ; the cast of the non-negative trim fraction to
size_t truncates, i.e. floor. -/
def calculate_trimmed_mean (data : List ℚ) (trim_percentage : ℚ) : ℚ :=
  if data = [] then 0
  else
    let sorted := sortFloats data
    let n := sorted.length
    let trim_count : ℕ := (trim_percentage / 100 * (n : ℚ)).floor.toNat
    if 2 * trim_count ≥ n then
      -- not enough elements after trimming; median fallback
      if n % 2 = 0 then (sorted.getD (n / 2 - 1) 0 + sorted.getD (n / 2) 0) / 2
      else sorted.getD (n / 2) 0
    else
      let trimmed := (sorted.drop trim_count).take (n - 2 * trim_count)
      let sum := trimmed.sum
      let count := trimmed.length
      sum / (if count = 0 then 1 else (count : ℚ))

/-- The spec's trimmed-mean rule, stated from the specification text:
sort a copy, take k = floor(p/100 * n), return the median when 2k >= n,
else the arithmetic mean of the central elements. -/
def medianOfSorted (l : List ℚ) : ℚ :=
  if l.length % 2 = 0 then (l.getD (l.length / 2 - 1) 0 + l.getD (l.length / 2) 0) / 2
  else l.getD (l.length / 2) 0

/-- The trimmed mean as the specification words it (used to compare the code
against the spec for claim C4). -/
def trimmed_mean_spec (B : List ℚ) (p : ℚ) : ℚ :=
  let sorted := sortFloats B
  let n := sorted.length
  let k : ℕ := (p / 100 * (n : ℚ)).floor.toNat
  if 2 * k ≥ n then medianOfSorted sorted
  else ((sorted.drop k).take (n - 2 * k)).sum / ((n : ℚ) - 2 * k)

theorem sortFloats_length (l : List ℚ) : (sortFloats l).length = l.length :=
  (List.perm_insertionSort _ l).length_eq

theorem mem_sortFloats {l : List ℚ} {x : ℚ} : x ∈ sortFloats l ↔ x ∈ l :=
  (List.perm_insertionSort _ l).mem_iff

theorem getD_mem {l : List ℚ} {i : ℕ} (h : i < l.length) (d : ℚ) : l.getD i d ∈ l := by
  rw [List.getD_eq_getElem l d h]
  exact List.getElem_mem h

theorem trimmed_mean_between (l : List ℚ) (p : ℚ) (hne : l ≠ []) :
    listMin l ≤ calculate_trimmed_mean l p ∧ calculate_trimmed_mean l p ≤ listMax l := by
  have hn : 0 < (sortFloats l).length := by
    rw [sortFloats_length]
    exact List.length_pos.mpr hne
  have hmem : ∀ {x : ℚ}, x ∈ sortFloats l → listMin l ≤ x ∧ x ≤ listMax l := by
    intro x hx
    have hxl := mem_sortFloats.mp hx
    exact ⟨listMin_le_of_mem hxl, le_listMax_of_mem hxl⟩
  unfold calculate_trimmed_mean
  rw [if_neg hne]
  dsimp only
  set s := sortFloats l with hs
  set n := s.length with hn2
  set tc := (p / 100 * (n : ℚ)).floor.toNat with htc
  by_cases hb : 2 * tc ≥ n
  · rw [if_pos hb]
    by_cases he : n % 2 = 0
    · rw [if_pos he]
      have h2 : 2 ≤ n := by omega
      obtain ⟨ha1, ha2⟩ := hmem (getD_mem (show n / 2 - 1 < n by omega) 0)
      obtain ⟨hb1, hb2⟩ := hmem (getD_mem (show n / 2 < n by omega) 0)
      constructor <;> linarith
    · rw [if_neg he]
      exact hmem (getD_mem (show n / 2 < n by omega) 0)
  · rw [if_neg hb]
    have hlt : 2 * tc < n := by omega
    set seg := (s.drop tc).take (n - 2 * tc) with hseg
    have hlen : seg.length = n - 2 * tc := by
      rw [hseg, List.length_take, List.length_drop]
      omega
    have hsegne : seg ≠ [] := by
      apply List.length_pos.mp
      omega
    have hsub : ∀ x ∈ seg, x ∈ s := fun x hx =>
      (List.drop_sublist tc s).subset ((List.take_sublist _ _).subset hx)
    have hcount : ¬ seg.length = 0 := by omega
    rw [if_neg hcount]
    exact mean_mem_Icc hsegne (fun x hx => (hmem (hsub x hx)).1)
      (fun x hx => (hmem (hsub x hx)).2)

unseal Rat.mul Rat.inv Rat.add in
/-- C4 (confirmed): calculate_trimmed_mean sorts a copy, computes
k = floor(p/100 * n), returns the median of the sorted data when 2k >= n
(average of the two middle elements when n is even) and otherwise the
arithmetic mean of the central elements; in particular
calculate_trimmed_mean [1,2,3,4,100] 40 = 3. -/
theorem trimmed_mean_matches_spec :
    (∀ (B : List ℚ) (p : ℚ), B ≠ [] → 0 ≤ p →
      calculate_trimmed_mean B p = trimmed_mean_spec B p)
    ∧ calculate_trimmed_mean [1, 2, 3, 4, 100] 40 = 3 := by
  constructor
  · intro B p hne _hp
    unfold calculate_trimmed_mean trimmed_mean_spec medianOfSorted
    rw [if_neg hne]
    dsimp only
    set s := sortFloats B with hs
    set n := s.length with hn2
    set tc := (p / 100 * (n : ℚ)).floor.toNat with htc
    by_cases hb : 2 * tc ≥ n
    · rw [if_pos hb, if_pos hb]
    · rw [if_neg hb, if_neg hb]
      have hlt : 2 * tc < n := by omega
      set seg := (s.drop tc).take (n - 2 * tc) with hseg
      have hlen : seg.length = n - 2 * tc := by
        rw [hseg, List.length_take, List.length_drop]
        omega
      have hcount : ¬ seg.length = 0 := by omega
      rw [if_neg hcount, hlen]
      congr 1
      rw [Nat.cast_sub (by omega : 2 * tc ≤ n)]
      push_cast
      ring
  · decide

/-- C9 (confirmed): for the empty input and any trim percentage,
calculate_trimmed_mean returns 0 without reading out of bounds. -/
theorem trimmed_mean_empty_input (p : ℚ) : calculate_trimmed_mean [] p = 0 := rfl

/-- Witness for the universally quantified part of C4, at the spec's S3
scenario input. -/
theorem trimmed_mean_matches_spec_witness :
    ([1, 2, 3, 4, 100] ≠ ([] : List ℚ) ∧ (0 : ℚ) ≤ 40)
    ∧ calculate_trimmed_mean [1, 2, 3, 4, 100] 40 = trimmed_mean_spec [1, 2, 3, 4, 100] 40 :=
  ⟨⟨by decide, by norm_num⟩,
    trimmed_mean_matches_spec.1 [1, 2, 3, 4, 100] 40 (by decide) (by norm_num)⟩

/-! ### EyeDiagramStorage (src/reader/eye_diagram.hpp / .cpp) -/

/-- Shallow embedding of EyeDiagramStorage.  bins is indexed
[storage_index][bin_index] and holds the accumulated float values. -/
structure EyeDiagramStorage where
  window_before_ms : ℤ := 50
  window_after_ms : ℤ := 150
  num_bins : ℤ := 200
  zero_offset_bins : ℤ := 50
  bins : List (List (List ℚ)) := []
  event_count : ℕ := 0
  original_sensor_indices : List ℕ := []
deriving DecidableEq

/-- EyeDiagramStorage's allocating constructor: sets the window configuration
and allocates an empty deque per tracked sensor and bin (reserve_per_bin only
pre-allocates capacity and has no observable effect on contents). -/
def EyeDiagramStorage.make (interesting_indices : List ℕ)
    (window_before_ms window_after_ms : ℤ) : EyeDiagramStorage :=
  { window_before_ms := window_before_ms
    window_after_ms := window_after_ms
    zero_offset_bins := window_before_ms
    num_bins := window_before_ms + window_after_ms
    original_sensor_indices := interesting_indices
    event_count := 0
    bins := List.replicate interesting_indices.length
      (List.replicate (window_before_ms + window_after_ms).toNat []) }

/-- EyeDiagramStorage::clear from src/reader/eye_diagram.cpp: resets
event_count and empties every per-sensor per-bin vector in place. -/
def EyeDiagramStorage.clear (s : EyeDiagramStorage) : EyeDiagramStorage :=
  { s with
    event_count := 0
    bins := s.bins.map (fun sensor_bins => sensor_bins.map (fun _ => ([] : List ℚ))) }

/-- getD through a map, when the default is mapped to the default. -/
theorem getD_map_of_default {α β : Type} (f : α → β) (l : List α) (i : ℕ)
    (dA : α) (dB : β) (h : f dA = dB) :
    (l.map f).getD i dB = f (l.getD i dA) := by
  by_cases hi : i < l.length
  · rw [List.getD_eq_getElem _ _ (by simpa using hi), List.getD_eq_getElem _ _ hi,
      List.getElem_map]
  · rw [List.getD_eq_default _ _ (by simpa using Nat.le_of_not_lt hi),
      List.getD_eq_default _ _ (Nat.le_of_not_lt hi), h]

/-- C10 (confirmed): EyeDiagramStorage::clear empties every per-sensor
per-bin value vector and resets event_count to 0 while leaving the window
configuration, the shape of bins and original_sensor_indices unchanged. -/
theorem eye_storage_clear_resets (s : EyeDiagramStorage) :
    s.clear.event_count = 0
    ∧ s.clear.window_before_ms = s.window_before_ms
    ∧ s.clear.window_after_ms = s.window_after_ms
    ∧ s.clear.num_bins = s.num_bins
    ∧ s.clear.zero_offset_bins = s.zero_offset_bins
    ∧ s.clear.original_sensor_indices = s.original_sensor_indices
    ∧ s.clear.bins.length = s.bins.length
    ∧ (∀ i : ℕ, (s.clear.bins.getD i []).length = (s.bins.getD i []).length)
    ∧ (∀ i j : ℕ, (s.clear.bins.getD i []).getD j [] = []) := by
  refine ⟨rfl, rfl, rfl, rfl, rfl, rfl, by simp [EyeDiagramStorage.clear], ?_, ?_⟩
  · intro i
    show ((s.bins.map _).getD i []).length = _
    rw [getD_map_of_default _ _ _ [] [] rfl, List.length_map]
  · intro i j
    show ((s.bins.map _).getD i []).getD j [] = []
    rw [getD_map_of_default _ _ _ [] [] rfl,
      getD_map_of_default (fun _ => ([] : List ℚ)) _ _ [] [] rfl]

/-! ### Samples and bin pushing (shared by EyeCapturer and GuiRunner) -/

/-- A RawSample as produced by the measurement thread: monotonic timestamp in
nanoseconds, snapshot of the shared worker-phase atomic, and the sensor
values (num_measurements is the length of the list). -/
structure RawSample where
  timestamp : ℤ
  worker_state : ℤ
  measurements : List ℚ
deriving DecidableEq

/-- std::chrono::duration_cast<milliseconds> of the difference of two
nanosecond time points: division by 1e6 truncating toward zero. -/
def msBetween (t r : ℤ) : ℤ := Int.tdiv (t - r) 1000000

/-- The sensor_to_storage_idx map lookup.  The map is built by iterating
i over the tracked-sensor list and assigning map[orig[i]] = i; a later
assignment overwrites an earlier one, hence the accumulator fold. -/
def storageIdxOf (orig : List ℕ) (sensor : ℕ) : Option ℕ :=
  (List.range orig.length).foldl
    (fun acc i => if orig.getD i 0 = sensor then some i else acc) none

/-- push_back of one value onto bins[j][b]. -/
def pushBin (bins : List (List (List ℚ))) (j b : ℕ) (v : ℚ) : List (List (List ℚ)) :=
  bins.set j ((bins.getD j []).set b (((bins.getD j []).getD b []) ++ [v]))

/-- The inner per-sample loop: for every sensor index i of the measurement,
if i is a tracked sensor, push measurements[i] onto bins[storage_idx][b]. -/
def binMeasurements (orig : List ℕ) (bins : List (List (List ℚ))) (b : ℕ)
    (values : List ℚ) : List (List (List ℚ)) :=
  (List.range values.length).foldl
    (fun bs i =>
      match storageIdxOf orig i with
      | some j => pushBin bs j b (values.getD i 0)
      | none => bs) bins

/-! ### EyeCapturer (src/reader/eye_capturer.cpp) -/

/-- The two states of the capture state machine. -/
inductive CapState where
  | idle
  | capturing
deriving DecidableEq

/-- The EyeCapturer: a reference to the storage plus the edge-detection
state (last observed worker state, last rise time, capture state). -/
structure EyeCapturer where
  storage : EyeDiagramStorage
  last_worker_state : ℤ := 0
  last_rise_time : ℤ := 0
  state : CapState := .idle
deriving DecidableEq

/-- EyeCapturer::process_sample from src/reader/eye_capturer.cpp: detect a
rising edge (worker_state 1 after 0), then while capturing bin each tracked
sensor value at bin = delta_ms + zero_offset_bins if that lies inside
[0, num_bins), and leave the capture when the bin runs past the window. -/
def EyeCapturer.process_sample (c : EyeCapturer) (timestamp : ℤ)
    (worker_state : ℤ) (measurements : List ℚ) : EyeCapturer :=
  let c1 :=
    if worker_state = 1 ∧ c.last_worker_state = 0 then
      { c with
        state := .capturing
        last_rise_time := timestamp
        storage := { c.storage with event_count := c.storage.event_count + 1 } }
    else c
  let c2 := { c1 with last_worker_state := worker_state }
  if c2.state = .capturing then
    let time_delta_ms := msBetween timestamp c2.last_rise_time
    let bin_index := time_delta_ms + c2.storage.zero_offset_bins
    if 0 ≤ bin_index ∧ bin_index < c2.storage.num_bins then
      { c2 with
        storage := { c2.storage with
          bins := binMeasurements c2.storage.original_sensor_indices
            c2.storage.bins bin_index.toNat measurements } }
    else if bin_index ≥ c2.storage.num_bins then
      { c2 with state := .idle }
    else c2
  else c2

/-- Feed a list of samples through the EyeCapturer. -/
def EyeCapturer.runSamples (c : EyeCapturer) (samples : List RawSample) : EyeCapturer :=
  samples.foldl (fun acc s => acc.process_sample s.timestamp s.worker_state s.measurements) c

/-! ### GuiRunner::run_processing_thread (src/reader/gui_runner.cpp) -/

/-- Render-ready per-sensor data (struct DisplayData from
src/reader/shared_data_types.hpp), with the C++ field defaults. -/
structure DisplayData where
  x_data : List ℚ := []
  y_data_mean : List ℚ := []
  y_data_max : List ℚ := []
  y_data_min : List ℚ := []
  original_sensor_index : ℤ := -1
  accumulation_count : ℕ := 0
  window_before_ms : ℤ := 50
  window_after_ms : ℤ := 150
deriving DecidableEq

/-- Configuration of the processing thread: period_ms (which is also the
number of bins) and the tracked-sensor index list. -/
structure GuiConfig where
  period_ms : ℤ
  interesting_index : List ℕ
deriving DecidableEq

/-- State carried across loop iterations of the processing thread. -/
structure ProcState where
  state : CapState := .idle
  last_rise_time : ℤ := 0
  current_trace : List RawSample := []
  buffer : List (List (List ℚ)) := []
  displays : List DisplayData := []
  max_accumulations : ℤ := 0
deriving DecidableEq

/-- Step a) of the finalization: bin one trace sample into the accumulation
buffer if its millisecond offset from the rise lies in [0, num_bins). -/
def pushTraceSample (orig : List ℕ) (numBins rise : ℤ)
    (buf : List (List (List ℚ))) (s : RawSample) : List (List (List ℚ)) :=
  let bin_idx := msBetween s.timestamp rise
  if 0 ≤ bin_idx ∧ bin_idx < numBins then
    binMeasurements orig buf bin_idx.toNat s.measurements
  else buf

/-- Step a) over the whole current_trace. -/
def finalizePush (orig : List ℕ) (numBins rise : ℤ)
    (buf : List (List (List ℚ))) (trace : List RawSample) : List (List (List ℚ)) :=
  trace.foldl (pushTraceSample orig numBins rise) buf

/-- Step b): while (size > max_acc) pop_front on one deque. -/
def trimDeque (maxAcc : ℤ) : List ℚ → List ℚ
  | [] => []
  | x :: xs => if ((x :: xs).length : ℤ) > maxAcc then trimDeque maxAcc xs else x :: xs

/-- Step b) over the whole accumulation buffer. -/
def trimBuffer (maxAcc : ℤ) (buf : List (List (List ℚ))) : List (List (List ℚ)) :=
  buf.map (fun sensor_bins => sensor_bins.map (fun bin_deque => trimDeque maxAcc bin_deque))

/-- Step c): recompute one sensor's DisplayData from its accumulation row.
The loop clears the display, sets window_after_ms to period_ms, and emits
x/mean/min/max entries for every non-empty bin. -/
def populateDisplay (row : List (List ℚ)) (numBins : ℕ) (period : ℤ)
    (old : DisplayData) : DisplayData :=
  let d0 : DisplayData :=
    { old with
      x_data := []
      y_data_mean := []
      y_data_max := []
      y_data_min := []
      accumulation_count := 0
      window_after_ms := period }
  (List.range numBins).foldl
    (fun d bin_idx =>
      let bin_deque := row.getD bin_idx []
      if bin_deque ≠ [] then
        { d with
          x_data := d.x_data ++ [(bin_idx : ℚ)]
          y_data_mean := d.y_data_mean ++ [calculate_trimmed_mean bin_deque 10]
          y_data_min := d.y_data_min ++ [listMin bin_deque]
          y_data_max := d.y_data_max ++ [listMax bin_deque]
          accumulation_count := bin_deque.length }
      else d) d0

/-- One iteration of the sample-consuming loop of
GuiRunner::run_processing_thread for a single RawSample: edge detection
(worker_state 1 while the state machine is IDLE), capture of in-window
samples into current_trace, and finalization (steps a-c) when a consumed
sample falls outside the window. -/
def processSample (cfg : GuiConfig) (st : ProcState) (s : RawSample) : ProcState :=
  let st1 :=
    if s.worker_state = 1 ∧ st.state = .idle then
      { st with state := .capturing, last_rise_time := s.timestamp, current_trace := [] }
    else st
  if st1.state = .capturing then
    let time_delta_ms := msBetween s.timestamp st1.last_rise_time
    if 0 ≤ time_delta_ms ∧ time_delta_ms < cfg.period_ms then
      { st1 with current_trace := st1.current_trace ++ [s] }
    else
      let pushed := finalizePush cfg.interesting_index cfg.period_ms
        st1.last_rise_time st1.buffer st1.current_trace
      let trimmed := trimBuffer st1.max_accumulations pushed
      let displays := (List.range cfg.interesting_index.length).map
        (fun i => populateDisplay (trimmed.getD i []) cfg.period_ms.toNat
          cfg.period_ms (st1.displays.getD i {}))
      { st1 with state := .idle, buffer := trimmed, displays := displays }
  else st1

/-- The initial state of the processing thread: empty accumulation buffer of
shape [num_interesting][num_bins], default-constructed displays. -/
def initProcState (cfg : GuiConfig) (maxAcc : ℤ) : ProcState :=
  { state := .idle
    last_rise_time := 0
    current_trace := []
    buffer := List.replicate cfg.interesting_index.length
      (List.replicate cfg.period_ms.toNat [])
    displays := List.replicate cfg.interesting_index.length {}
    max_accumulations := maxAcc }

/-- Consume a list of samples from the SPSC queue in order. -/
def runProcessing (cfg : GuiConfig) (st : ProcState) (samples : List RawSample) : ProcState :=
  samples.foldl (processSample cfg) st

/-! ### Per-cell characterization of the binning fold -/

/-- The contents of bins[j][b], with defaults for out-of-range indices. -/
def cellAt (buf : List (List (List ℚ))) (j b : ℕ) : List ℚ :=
  (buf.getD j []).getD b []

theorem getD_set_ne {α : Type} (l : List α) {i j : ℕ} (v d : α) (h : i ≠ j) :
    (l.set i v).getD j d = l.getD j d := by
  by_cases hj : j < l.length
  · rw [List.getD_eq_getElem _ _ (by simpa using hj), List.getD_eq_getElem _ _ hj,
      List.getElem_set_ne h]
  · rw [List.getD_eq_default _ _ (by simpa using Nat.le_of_not_lt hj),
      List.getD_eq_default _ _ (Nat.le_of_not_lt hj)]

theorem getD_set_self {α : Type} (l : List α) {i : ℕ} (v d : α) (h : i < l.length) :
    (l.set i v).getD i d = v := by
  rw [List.getD_eq_getElem _ _ (by simpa using h)]
  exact List.getElem_set_self _

theorem pushBin_length (buf : List (List (List ℚ))) (j b : ℕ) (v : ℚ) :
    (pushBin buf j b v).length = buf.length := List.length_set ..

theorem pushBin_row_length (buf : List (List (List ℚ))) (j b : ℕ) (v : ℚ) (j' : ℕ) :
    ((pushBin buf j b v).getD j' []).length = (buf.getD j' []).length := by
  unfold pushBin
  by_cases hjj : j = j'
  · subst hjj
    by_cases hj : j < buf.length
    · rw [getD_set_self _ _ _ hj, List.length_set]
    · rw [List.set_eq_of_length_le (Nat.le_of_not_lt hj)]
  · rw [getD_set_ne _ _ _ hjj]

theorem pushBin_cell_self (buf : List (List (List ℚ))) {j b : ℕ} (v : ℚ)
    (hj : j < buf.length) (hb : b < (buf.getD j []).length) :
    cellAt (pushBin buf j b v) j b = cellAt buf j b ++ [v] := by
  unfold pushBin cellAt
  rw [getD_set_self _ _ _ hj, getD_set_self _ _ _ hb]

theorem pushBin_cell_other (buf : List (List (List ℚ))) {j b j' b' : ℕ} (v : ℚ)
    (h : j' ≠ j ∨ b' ≠ b) :
    cellAt (pushBin buf j' b' v) j b = cellAt buf j b := by
  unfold pushBin cellAt
  rcases h with h | h
  · rw [getD_set_ne _ _ _ h]
  · by_cases hj : j' = j
    · subst hj
      by_cases hlt : j' < buf.length
      · rw [getD_set_self _ _ _ hlt, getD_set_ne _ _ _ h]
      · rw [List.set_eq_of_length_le (Nat.le_of_not_lt hlt)]
    · rw [getD_set_ne _ _ _ hj]

theorem foldl_lastwins_sound (orig : List ℕ) (sensor : ℕ) (is : List ℕ)
    (acc : Option ℕ) {j : ℕ}
    (h : is.foldl (fun a i => if orig.getD i 0 = sensor then some i else a) acc = some j) :
    (j ∈ is ∧ orig.getD j 0 = sensor) ∨ acc = some j := by
  induction is using List.reverseRecOn generalizing acc with
  | nil => exact Or.inr h
  | append_singleton is i ih =>
      rw [List.foldl_append] at h
      simp only [List.foldl_cons, List.foldl_nil] at h
      by_cases hp : orig.getD i 0 = sensor
      · rw [if_pos hp] at h
        obtain rfl : i = j := by injection h
        exact Or.inl ⟨List.mem_append_right _ (List.mem_singleton_self i), hp⟩
      · rw [if_neg hp] at h
        rcases ih acc h with ⟨hm, hs⟩ | ha
        · exact Or.inl ⟨List.mem_append_left _ hm, hs⟩
        · exact Or.inr ha

theorem foldl_lastwins_isSome (orig : List ℕ) (sensor : ℕ) (is : List ℕ)
    (acc : Option ℕ) {i0 : ℕ} (hmem : i0 ∈ is) (hp : orig.getD i0 0 = sensor) :
    ∃ j, is.foldl (fun a i => if orig.getD i 0 = sensor then some i else a) acc = some j := by
  induction is using List.reverseRecOn generalizing acc with
  | nil => cases hmem
  | append_singleton is i ih =>
      rw [List.foldl_append]
      simp only [List.foldl_cons, List.foldl_nil]
      by_cases hpi : orig.getD i 0 = sensor
      · exact ⟨i, by rw [if_pos hpi]⟩
      · rw [if_neg hpi]
        rcases List.mem_append.mp hmem with hm | hm
        · exact ih acc hm
        · rw [List.mem_singleton] at hm
          subst hm
          exact absurd hp hpi

theorem storageIdxOf_eq_some_iff {orig : List ℕ} (hnd : orig.Nodup) {sensor j : ℕ}
    (hj : j < orig.length) :
    storageIdxOf orig sensor = some j ↔ orig.getD j 0 = sensor := by
  constructor
  · intro h
    rcases foldl_lastwins_sound orig sensor _ none h with ⟨_, hs⟩ | ha
    · exact hs
    · cases ha
  · intro hs
    obtain ⟨j', hj'⟩ := foldl_lastwins_isSome orig sensor (List.range orig.length) none
      (List.mem_range.mpr hj) hs
    rcases foldl_lastwins_sound orig sensor _ none hj' with ⟨hm', hs'⟩ | ha
    · have hj'lt : j' < orig.length := List.mem_range.mp hm'
      have : orig[j'] = orig[j] := by
        rw [← List.getD_eq_getElem orig 0 hj'lt, ← List.getD_eq_getElem orig 0 hj, hs', hs]
      have : j' = j := hnd.getElem_inj_iff.mp this
      subst this
      exact hj'
    · cases ha

theorem storageIdxOf_lt_length {orig : List ℕ} {sensor j : ℕ}
    (h : storageIdxOf orig sensor = some j) : j < orig.length ∧ orig.getD j 0 = sensor := by
  rcases foldl_lastwins_sound orig sensor _ none h with ⟨hm, hs⟩ | ha
  · exact ⟨List.mem_range.mp hm, hs⟩
  · cases ha

theorem binFold_shape (orig : List ℕ) (values : List ℚ) (b' : ℕ) (is : List ℕ)
    (buf : List (List (List ℚ))) :
    ((is.foldl (fun bs i =>
        match storageIdxOf orig i with
        | some j => pushBin bs j b' (values.getD i 0)
        | none => bs) buf)).length = buf.length
    ∧ ∀ j' : ℕ, (((is.foldl (fun bs i =>
        match storageIdxOf orig i with
        | some j => pushBin bs j b' (values.getD i 0)
        | none => bs) buf)).getD j' []).length = ((buf.getD j' []).length) := by
  induction is generalizing buf with
  | nil => exact ⟨rfl, fun _ => rfl⟩
  | cons i is ih =>
      rw [List.foldl_cons]
      cases m : storageIdxOf orig i with
      | none =>
          simpa [m] using ih buf
      | some j'' =>
          obtain ⟨h1, h2⟩ := ih (pushBin buf j'' b' (values.getD i 0))
          refine ⟨?_, fun j' => ?_⟩
          · simp only [m]
            rw [h1, pushBin_length]
          · simp only [m]
            rw [h2 j', pushBin_row_length]

theorem binFold_cell (orig : List ℕ) (values : List ℚ)
    (b' j b : ℕ) (hj : j < orig.length) (is : List ℕ) (buf : List (List (List ℚ)))
    (hlen : buf.length = orig.length) (hb' : b' < (buf.getD j []).length) :
    cellAt (is.foldl (fun bs i =>
        match storageIdxOf orig i with
        | some j => pushBin bs j b' (values.getD i 0)
        | none => bs) buf) j b
      = cellAt buf j b ++ (is.filterMap (fun i =>
          if storageIdxOf orig i = some j ∧ b = b'
          then some (values.getD i 0) else none)) := by
  induction is generalizing buf with
  | nil => simp
  | cons i is ih =>
      rw [List.foldl_cons]
      cases m : storageIdxOf orig i with
      | none =>
          dsimp only
          have hfi : (if storageIdxOf orig i = some j ∧ b = b'
              then some (values.getD i 0) else none) = none := by
            rw [if_neg]
            rintro ⟨h1, -⟩
            rw [m] at h1
            cases h1
          rw [@List.filterMap_cons_none ℕ ℚ (fun i => if storageIdxOf orig i = some j ∧ b = b'
              then some (values.getD i 0) else none) i is hfi]
          exact ih buf hlen hb'
      | some j'' =>
          dsimp only
          have ihp := ih (pushBin buf j'' b' (values.getD i 0))
            (by rw [pushBin_length, hlen]) (by rw [pushBin_row_length]; exact hb')
          by_cases hjj : j'' = j
          · subst hjj
            by_cases hbb : b = b'
            · subst hbb
              have hfi : (if storageIdxOf orig i = some j'' ∧ b = b
                  then some (values.getD i 0) else none) = some (values.getD i 0) :=
                if_pos ⟨m, rfl⟩
              rw [@List.filterMap_cons_some ℕ ℚ (fun i => if storageIdxOf orig i = some j'' ∧ b = b
                  then some (values.getD i 0) else none) i is _ hfi, ihp,
                pushBin_cell_self buf _ (hlen ▸ hj) hb']
              simp
            · have hfi : (if storageIdxOf orig i = some j'' ∧ b = b'
                  then some (values.getD i 0) else none) = none := by
                rw [if_neg]
                rintro ⟨-, h2⟩
                exact hbb h2
              rw [@List.filterMap_cons_none ℕ ℚ (fun i => if storageIdxOf orig i = some j'' ∧ b = b'
                  then some (values.getD i 0) else none) i is hfi, ihp,
                pushBin_cell_other buf _ (Or.inr fun h => hbb h.symm)]
          · have hfi : (if storageIdxOf orig i = some j ∧ b = b'
                then some (values.getD i 0) else none) = none := by
              rw [if_neg]
              rintro ⟨h1, -⟩
              rw [m] at h1
              exact hjj (by injection h1)
            rw [@List.filterMap_cons_none ℕ ℚ (fun i => if storageIdxOf orig i = some j ∧ b = b'
                then some (values.getD i 0) else none) i is hfi, ihp,
              pushBin_cell_other buf _ (Or.inl hjj)]

theorem filterMap_range_single (n i0 : ℕ) (c : Prop) [Decidable c] (g : ℕ → ℚ) :
    (List.range n).filterMap (fun i => if i0 = i ∧ c then some (g i) else none)
      = if i0 < n ∧ c then [g i0] else [] := by
  induction n with
  | zero => simp
  | succ n ih =>
      rw [List.range_succ, List.filterMap_append, ih]
      by_cases hc : c
      · by_cases h0 : i0 = n
        · subst h0
          rw [if_neg (by omega : ¬(i0 < i0 ∧ c)), if_pos ⟨Nat.lt_succ_self i0, hc⟩]
          simp [hc]
        · by_cases hlt : i0 < n
          · rw [if_pos ⟨hlt, hc⟩, if_pos ⟨Nat.lt_succ_of_lt hlt, hc⟩]
            simp [h0]
          · rw [if_neg (by tauto), if_neg (by
              rintro ⟨h1, -⟩
              omega)]
            simp [h0]
      · rw [if_neg (by tauto), if_neg (by tauto)]
        simp [hc]

theorem binMeasurements_length (orig : List ℕ) (buf : List (List (List ℚ)))
    (b' : ℕ) (values : List ℚ) :
    (binMeasurements orig buf b' values).length = buf.length :=
  (binFold_shape orig values b' (List.range values.length) buf).1

theorem binMeasurements_row_length (orig : List ℕ) (buf : List (List (List ℚ)))
    (b' : ℕ) (values : List ℚ) (j' : ℕ) :
    ((binMeasurements orig buf b' values).getD j' []).length = (buf.getD j' []).length :=
  (binFold_shape orig values b' (List.range values.length) buf).2 j'

theorem binMeasurements_cell (orig : List ℕ) (hnd : orig.Nodup)
    (buf : List (List (List ℚ))) (b' : ℕ) (values : List ℚ) (j b : ℕ)
    (hj : j < orig.length) (hlen : buf.length = orig.length)
    (hb' : b' < (buf.getD j []).length) :
    cellAt (binMeasurements orig buf b' values) j b
      = cellAt buf j b
        ++ (if orig.getD j 0 < values.length ∧ b = b'
            then [values.getD (orig.getD j 0) 0] else []) := by
  unfold binMeasurements
  rw [binFold_cell orig values b' j b hj (List.range values.length) buf hlen hb']
  congr 1
  have hcongr : ∀ i ∈ List.range values.length,
      (if storageIdxOf orig i = some j ∧ b = b' then some (values.getD i 0) else none)
        = (if orig.getD j 0 = i ∧ b = b' then some (values.getD i 0) else none) := by
    intro i _
    by_cases h : orig.getD j 0 = i
    · by_cases hb : b = b'
      · rw [if_pos ⟨(storageIdxOf_eq_some_iff hnd hj).mpr h, hb⟩, if_pos ⟨h, hb⟩]
      · rw [if_neg (by tauto), if_neg (by tauto)]
    · have : ¬ storageIdxOf orig i = some j := fun hs =>
        h ((storageIdxOf_eq_some_iff hnd hj).mp hs)
      rw [if_neg (by tauto), if_neg (by tauto)]
  rw [List.filterMap_congr hcongr,
    filterMap_range_single values.length (orig.getD j 0) (b = b') (fun i => values.getD i 0)]

theorem pushTraceSample_length (orig : List ℕ) (numBins rise : ℤ)
    (buf : List (List (List ℚ))) (s : RawSample) :
    (pushTraceSample orig numBins rise buf s).length = buf.length := by
  unfold pushTraceSample
  by_cases h : 0 ≤ msBetween s.timestamp rise ∧ msBetween s.timestamp rise < numBins
  · rw [if_pos h, binMeasurements_length]
  · rw [if_neg h]

theorem pushTraceSample_row_length (orig : List ℕ) (numBins rise : ℤ)
    (buf : List (List (List ℚ))) (s : RawSample) (j' : ℕ) :
    ((pushTraceSample orig numBins rise buf s).getD j' []).length
      = (buf.getD j' []).length := by
  unfold pushTraceSample
  by_cases h : 0 ≤ msBetween s.timestamp rise ∧ msBetween s.timestamp rise < numBins
  · rw [if_pos h, binMeasurements_row_length]
  · rw [if_neg h]

/-- The values that finalization step a) appends to bins[j][b]: the values,
in trace order, of the trace samples whose millisecond offset from the rise
falls in [0, num_bins), lands in bin b, and which carry enough measurement
entries to cover tracked sensor j. -/
def traceValuesForCell (orig : List ℕ) (numBins rise : ℤ) (j b : ℕ)
    (trace : List RawSample) : List ℚ :=
  trace.filterMap (fun u =>
    if 0 ≤ msBetween u.timestamp rise ∧ msBetween u.timestamp rise < numBins
        ∧ orig.getD j 0 < u.measurements.length
        ∧ b = (msBetween u.timestamp rise).toNat
    then some (u.measurements.getD (orig.getD j 0) 0) else none)

theorem finalizePush_cell (orig : List ℕ) (hnd : orig.Nodup) (numBins rise : ℤ)
    (j b : ℕ) (hj : j < orig.length) (trace : List RawSample)
    (buf : List (List (List ℚ))) (hlen : buf.length = orig.length)
    (hrow : (buf.getD j []).length = numBins.toNat) :
    cellAt (finalizePush orig numBins rise buf trace) j b
      = cellAt buf j b ++ traceValuesForCell orig numBins rise j b trace := by
  induction trace generalizing buf with
  | nil => simp [finalizePush, traceValuesForCell]
  | cons u trace ih =>
      have hfold : finalizePush orig numBins rise buf (u :: trace)
          = finalizePush orig numBins rise (pushTraceSample orig numBins rise buf u) trace := by
        unfold finalizePush
        rw [List.foldl_cons]
      rw [hfold]
      have ihp := ih (pushTraceSample orig numBins rise buf u)
        (by rw [pushTraceSample_length, hlen]) (by rw [pushTraceSample_row_length]; exact hrow)
      rw [ihp]
      by_cases hw : 0 ≤ msBetween u.timestamp rise ∧ msBetween u.timestamp rise < numBins
      · have hpush : pushTraceSample orig numBins rise buf u
            = binMeasurements orig buf (msBetween u.timestamp rise).toNat u.measurements := by
          unfold pushTraceSample
          rw [if_pos hw]
        have hb' : (msBetween u.timestamp rise).toNat < (buf.getD j []).length := by
          rw [hrow]
          omega
        rw [hpush, binMeasurements_cell orig hnd buf _ u.measurements j b hj hlen hb']
        by_cases hc : orig.getD j 0 < u.measurements.length
            ∧ b = (msBetween u.timestamp rise).toNat
        · have hhead : (if 0 ≤ msBetween u.timestamp rise ∧ msBetween u.timestamp rise < numBins
              ∧ orig.getD j 0 < u.measurements.length
              ∧ b = (msBetween u.timestamp rise).toNat
              then some (u.measurements.getD (orig.getD j 0) 0) else none)
                = some (u.measurements.getD (orig.getD j 0) 0) :=
            if_pos ⟨hw.1, hw.2, hc.1, hc.2⟩
          unfold traceValuesForCell
          rw [@List.filterMap_cons_some RawSample ℚ _ u trace _ hhead, if_pos hc]
          simp
        · have hhead : (if 0 ≤ msBetween u.timestamp rise ∧ msBetween u.timestamp rise < numBins
              ∧ orig.getD j 0 < u.measurements.length
              ∧ b = (msBetween u.timestamp rise).toNat
              then some (u.measurements.getD (orig.getD j 0) 0) else none) = none := by
            rw [if_neg]
            rintro ⟨-, -, h3, h4⟩
            exact hc ⟨h3, h4⟩
          unfold traceValuesForCell
          rw [@List.filterMap_cons_none RawSample ℚ _ u trace hhead, if_neg hc]
          simp
      · have hpush : pushTraceSample orig numBins rise buf u = buf := by
          unfold pushTraceSample
          rw [if_neg hw]
        have hhead : (if 0 ≤ msBetween u.timestamp rise ∧ msBetween u.timestamp rise < numBins
            ∧ orig.getD j 0 < u.measurements.length
            ∧ b = (msBetween u.timestamp rise).toNat
            then some (u.measurements.getD (orig.getD j 0) 0) else none) = none := by
          rw [if_neg]
          rintro ⟨h1, h2, -⟩
          exact hw ⟨h1, h2⟩
        unfold traceValuesForCell
        rw [hpush, @List.filterMap_cons_none RawSample ℚ _ u trace hhead]

/-! ### FIFO eviction (step b of the finalization) -/

theorem trimDeque_eq_drop (maxAcc : ℤ) (hm : 0 ≤ maxAcc) (d : List ℚ) :
    trimDeque maxAcc d = d.drop (d.length - maxAcc.toNat) := by
  induction d with
  | nil => simp [trimDeque]
  | cons x xs ih =>
      unfold trimDeque
      by_cases h : ((x :: xs).length : ℤ) > maxAcc
      · rw [if_pos h, ih]
        have : (x :: xs).length - maxAcc.toNat = (xs.length - maxAcc.toNat) + 1 := by
          simp only [List.length_cons] at h ⊢
          omega
        rw [this, List.drop_succ_cons]
      · rw [if_neg h]
        have : (x :: xs).length - maxAcc.toNat = 0 := by
          simp only [List.length_cons] at h ⊢
          omega
        rw [this, List.drop_zero]

theorem trimDeque_length_le (maxAcc : ℤ) (hm : 0 ≤ maxAcc) (d : List ℚ) :
    (trimDeque maxAcc d).length ≤ maxAcc.toNat := by
  rw [trimDeque_eq_drop maxAcc hm, List.length_drop]
  cases Nat.le_total d.length maxAcc.toNat with
  | inl h => omega
  | inr h => omega

theorem trimBuffer_cell (maxAcc : ℤ) (buf : List (List (List ℚ))) (j b : ℕ) :
    cellAt (trimBuffer maxAcc buf) j b = trimDeque maxAcc (cellAt buf j b) := by
  unfold trimBuffer cellAt
  rw [getD_map_of_default _ _ _ [] [] rfl,
    getD_map_of_default (fun bin_deque => trimDeque maxAcc bin_deque) _ _ [] [] rfl]

/-! ### Behaviour of processSample while CAPTURING -/

theorem processSample_capturing_eq (cfg : GuiConfig) (st : ProcState) (s : RawSample)
    (hcap : st.state = .capturing) :
    processSample cfg st s
      = if 0 ≤ msBetween s.timestamp st.last_rise_time
          ∧ msBetween s.timestamp st.last_rise_time < cfg.period_ms
        then { st with current_trace := st.current_trace ++ [s] }
        else
          { st with
            state := .idle
            buffer := trimBuffer st.max_accumulations
              (finalizePush cfg.interesting_index cfg.period_ms st.last_rise_time
                st.buffer st.current_trace)
            displays := (List.range cfg.interesting_index.length).map
              (fun i => populateDisplay
                ((trimBuffer st.max_accumulations
                  (finalizePush cfg.interesting_index cfg.period_ms st.last_rise_time
                    st.buffer st.current_trace)).getD i [])
                cfg.period_ms.toNat cfg.period_ms (st.displays.getD i {})) } := by
  unfold processSample
  have hedge : ¬ (s.worker_state = 1 ∧ st.state = CapState.idle) := by
    rintro ⟨-, h⟩
    rw [hcap] at h
    cases h
  rw [if_neg hedge]
  dsimp only
  rw [if_pos hcap]

/-- C1 (corrected, amended claim): at finalization the processor bins only
the samples of current_trace; each sample u contributes, for every tracked
sensor j covered by u, the value u.measurements[orig_index(j)] to
bins[j][bin] with bin = (u.timestamp - trigger_time in whole ms), subject
to 0 <= bin < num_bins (= period_ms), followed by FIFO trimming.  There is
no retained sample-history ring and no window_before offset, so pre-trigger
bins are never back-filled. -/
theorem finalize_bins_only_current_trace (cfg : GuiConfig) (st : ProcState)
    (s : RawSample) (hcap : st.state = .capturing)
    (hout : ¬ (0 ≤ msBetween s.timestamp st.last_rise_time
      ∧ msBetween s.timestamp st.last_rise_time < cfg.period_ms))
    (hnd : cfg.interesting_index.Nodup)
    (hlen : st.buffer.length = cfg.interesting_index.length)
    (j b : ℕ) (hj : j < cfg.interesting_index.length)
    (hrow : (st.buffer.getD j []).length = cfg.period_ms.toNat) :
    cellAt (processSample cfg st s).buffer j b
      = trimDeque st.max_accumulations
        (cellAt st.buffer j b
          ++ traceValuesForCell cfg.interesting_index cfg.period_ms
            st.last_rise_time j b st.current_trace) := by
  rw [processSample_capturing_eq cfg st s hcap, if_neg hout]
  dsimp only
  rw [trimBuffer_cell,
    finalizePush_cell cfg.interesting_index hnd cfg.period_ms st.last_rise_time
      j b hj st.current_trace st.buffer hlen hrow]

/-- Witness for finalize_bins_only_current_trace: one tracked sensor, a
two-bin window, a one-sample trace at millisecond offset 0. -/
theorem finalize_bins_only_current_trace_witness :
    (({ state := .capturing, last_rise_time := 0,
        current_trace := [{ timestamp := 500000, worker_state := 1, measurements := [7] }],
        buffer := [[[], []]], displays := [{}],
        max_accumulations := 5 } : ProcState).state = CapState.capturing
      ∧ ¬ (0 ≤ msBetween 2500000 0 ∧ msBetween 2500000 0 < (2:ℤ))
      ∧ ([0] : List ℕ).Nodup)
    ∧ cellAt (processSample { period_ms := 2, interesting_index := [0] }
        { state := .capturing, last_rise_time := 0,
          current_trace := [{ timestamp := 500000, worker_state := 1, measurements := [7] }],
          buffer := [[[], []]], displays := [{}], max_accumulations := 5 }
        { timestamp := 2500000, worker_state := 0, measurements := [9] }).buffer 0 0
      = trimDeque 5
        (cellAt [[[], []]] 0 0
          ++ traceValuesForCell [0] 2 0 0 0
            [{ timestamp := 500000, worker_state := 1, measurements := [7] }]) :=
  ⟨⟨rfl, by decide, by decide⟩,
    finalize_bins_only_current_trace { period_ms := 2, interesting_index := [0] }
      { state := .capturing, last_rise_time := 0,
        current_trace := [{ timestamp := 500000, worker_state := 1, measurements := [7] }],
        buffer := [[[], []]], displays := [{}], max_accumulations := 5 }
      { timestamp := 2500000, worker_state := 0, measurements := [9] }
      rfl (by decide) (by decide) (by decide) 0 0 (by decide) (by decide)⟩

/-- C3 (corrected, amended claim): after a finalization step every bin deque
satisfies len <= max_accumulations (for a non-negative cap), and eviction
removes elements from the front (the oldest first): the resulting cell is
the suffix of the pushed cell obtained by dropping the excess from the
front.  A newly pushed value can itself be dropped only when more than
max_accumulations values land in the same bin during one finalization. -/
theorem finalize_eviction_bound (cfg : GuiConfig) (st : ProcState) (s : RawSample)
    (hcap : st.state = .capturing)
    (hout : ¬ (0 ≤ msBetween s.timestamp st.last_rise_time
      ∧ msBetween s.timestamp st.last_rise_time < cfg.period_ms))
    (hm : 0 ≤ st.max_accumulations) (j b : ℕ) :
    (cellAt (processSample cfg st s).buffer j b).length ≤ st.max_accumulations.toNat
    ∧ cellAt (processSample cfg st s).buffer j b
        = (cellAt (finalizePush cfg.interesting_index cfg.period_ms
            st.last_rise_time st.buffer st.current_trace) j b).drop
          ((cellAt (finalizePush cfg.interesting_index cfg.period_ms
            st.last_rise_time st.buffer st.current_trace) j b).length
            - st.max_accumulations.toNat) := by
  rw [processSample_capturing_eq cfg st s hcap, if_neg hout]
  dsimp only
  rw [trimBuffer_cell]
  exact ⟨trimDeque_length_le _ hm _, trimDeque_eq_drop _ hm _⟩

/-- Witness for finalize_eviction_bound: two same-bin values pushed with a
cap of 1. -/
theorem finalize_eviction_bound_witness :
    (({ state := .capturing, last_rise_time := 1000000,
        current_trace := [{ timestamp := 1000000, worker_state := 1, measurements := [3] },
          { timestamp := 1500000, worker_state := 1, measurements := [4] }],
        buffer := [[[], []]], displays := [{}],
        max_accumulations := 1 } : ProcState).state = CapState.capturing
      ∧ ¬ (0 ≤ msBetween 3100000 1000000 ∧ msBetween 3100000 1000000 < (2:ℤ))
      ∧ (0:ℤ) ≤ 1)
    ∧ ((cellAt (processSample { period_ms := 2, interesting_index := [0] }
        { state := .capturing, last_rise_time := 1000000,
          current_trace := [{ timestamp := 1000000, worker_state := 1, measurements := [3] },
            { timestamp := 1500000, worker_state := 1, measurements := [4] }],
          buffer := [[[], []]], displays := [{}], max_accumulations := 1 }
        { timestamp := 3100000, worker_state := 0, measurements := [6] }).buffer 0 0).length ≤ (1:ℤ).toNat
      ∧ cellAt (processSample { period_ms := 2, interesting_index := [0] }
        { state := .capturing, last_rise_time := 1000000,
          current_trace := [{ timestamp := 1000000, worker_state := 1, measurements := [3] },
            { timestamp := 1500000, worker_state := 1, measurements := [4] }],
          buffer := [[[], []]], displays := [{}], max_accumulations := 1 }
        { timestamp := 3100000, worker_state := 0, measurements := [6] }).buffer 0 0
        = (cellAt (finalizePush [0] 2 1000000 [[[], []]]
            [{ timestamp := 1000000, worker_state := 1, measurements := [3] },
              { timestamp := 1500000, worker_state := 1, measurements := [4] }]) 0 0).drop
          ((cellAt (finalizePush [0] 2 1000000 [[[], []]]
            [{ timestamp := 1000000, worker_state := 1, measurements := [3] },
              { timestamp := 1500000, worker_state := 1, measurements := [4] }]) 0 0).length
            - (1:ℤ).toNat)) :=
  ⟨⟨rfl, by decide, by decide⟩,
    finalize_eviction_bound { period_ms := 2, interesting_index := [0] }
      { state := .capturing, last_rise_time := 1000000,
        current_trace := [{ timestamp := 1000000, worker_state := 1, measurements := [3] },
          { timestamp := 1500000, worker_state := 1, measurements := [4] }],
        buffer := [[[], []]], displays := [{}], max_accumulations := 1 }
      { timestamp := 3100000, worker_state := 0, measurements := [6] }
      rfl (by decide) (by decide) 0 0⟩


/-- C5 (corrected, amended claim): in the GuiRunner processor a rising
worker-phase edge arriving while the state machine is CAPTURING is ignored
(edge detection requires the IDLE state): trigger_time is unchanged and the
sample is simply appended to current_trace when it lies inside the window.
The EyeCapturer variant, whose edge detection compares the previous
worker state instead, does reset last_rise_time to the new sample's
timestamp and stays CAPTURING (it has no current_trace to clear). -/
theorem rising_edge_while_capturing :
    (∀ (cfg : GuiConfig) (st : ProcState) (s : RawSample), st.state = .capturing →
      (processSample cfg st s).last_rise_time = st.last_rise_time)
    ∧ (∀ (cfg : GuiConfig) (st : ProcState) (s : RawSample), st.state = .capturing →
        0 ≤ msBetween s.timestamp st.last_rise_time →
        msBetween s.timestamp st.last_rise_time < cfg.period_ms →
        (processSample cfg st s).state = .capturing
          ∧ (processSample cfg st s).current_trace = st.current_trace ++ [s])
    ∧ (∀ (c : EyeCapturer) (t ws : ℤ) (vals : List ℚ), c.state = .capturing →
        c.last_worker_state = 0 → ws = 1 →
        c.storage.zero_offset_bins < c.storage.num_bins →
        (c.process_sample t ws vals).last_rise_time = t
          ∧ (c.process_sample t ws vals).state = .capturing) := by
  refine ⟨?_, ?_, ?_⟩
  · intro cfg st s hcap
    rw [processSample_capturing_eq cfg st s hcap]
    by_cases hw : 0 ≤ msBetween s.timestamp st.last_rise_time
        ∧ msBetween s.timestamp st.last_rise_time < cfg.period_ms
    · rw [if_pos hw]
    · rw [if_neg hw]
  · intro cfg st s hcap h1 h2
    have hw : 0 ≤ msBetween s.timestamp st.last_rise_time
        ∧ msBetween s.timestamp st.last_rise_time < cfg.period_ms := ⟨h1, h2⟩
    rw [processSample_capturing_eq cfg st s hcap, if_pos hw]
    exact ⟨hcap, rfl⟩
  · intro c t ws vals hcap hlast hws hz
    have hedge : ws = 1 ∧ c.last_worker_state = 0 := ⟨hws, hlast⟩
    unfold EyeCapturer.process_sample
    dsimp only
    rw [if_pos hedge]
    dsimp only
    rw [if_pos (rfl : CapState.capturing = CapState.capturing)]
    have hms : msBetween t t = 0 := by simp [msBetween]
    rw [hms, zero_add]
    by_cases hb : (0:ℤ) ≤ c.storage.zero_offset_bins
        ∧ c.storage.zero_offset_bins < c.storage.num_bins
    · rw [if_pos hb]
      exact ⟨rfl, rfl⟩
    · rw [if_neg hb, if_neg (not_le.mpr hz)]
      exact ⟨rfl, rfl⟩

/-- A four-bin eye storage tracking only sensor 0, used in concrete runs. -/
def smallStorage : EyeDiagramStorage :=
  { window_before_ms := 2
    window_after_ms := 2
    num_bins := 4
    zero_offset_bins := 2
    bins := [[[], [], [], []]]
    event_count := 0
    original_sensor_indices := [0] }

/-- A capturing EyeCapturer over smallStorage whose last observed worker
state is 0. -/
def smallCapturer : EyeCapturer :=
  { storage := smallStorage
    last_worker_state := 0
    last_rise_time := 0
    state := .capturing }

/-- A capturing processor state with one trace sample, used in concrete runs. -/
def capturingState : ProcState :=
  { state := .capturing
    last_rise_time := 1000000
    current_trace := [{ timestamp := 1000000, worker_state := 1, measurements := [1] }]
    buffer := [[[], [], [], [], []]]
    displays := [{}]
    max_accumulations := 30 }

/-- Witness for rising_edge_while_capturing: a capturing processor state fed
a phase-1 sample inside the window, and a capturing EyeCapturer fed a
rising edge. -/
theorem rising_edge_while_capturing_witness :
    (capturingState.state = CapState.capturing
      ∧ 0 ≤ msBetween 3000000 1000000 ∧ msBetween 3000000 1000000 < (5:ℤ))
    ∧ (processSample { period_ms := 5, interesting_index := [0] } capturingState
        { timestamp := 3000000, worker_state := 1, measurements := [3] }).state = .capturing
    ∧ (processSample { period_ms := 5, interesting_index := [0] } capturingState
        { timestamp := 3000000, worker_state := 1, measurements := [3] }).last_rise_time
      = 1000000
    ∧ (EyeCapturer.process_sample smallCapturer 7000000 1 [9]).last_rise_time = 7000000 :=
  ⟨⟨rfl, by decide, by decide⟩,
    (rising_edge_while_capturing.2.1 { period_ms := 5, interesting_index := [0] }
      capturingState { timestamp := 3000000, worker_state := 1, measurements := [3] }
      rfl (by decide) (by decide)).1,
    rising_edge_while_capturing.1 { period_ms := 5, interesting_index := [0] }
      capturingState { timestamp := 3000000, worker_state := 1, measurements := [3] } rfl,
    (rising_edge_while_capturing.2.2 smallCapturer 7000000 1 [9]
      rfl rfl rfl (by decide)).1⟩

/-- An idle EyeCapturer over smallStorage (fresh start). -/
def idleCapturer : EyeCapturer :=
  { storage := smallStorage
    last_worker_state := 0
    last_rise_time := 0
    state := .idle }

/-- A sample stream with one pre-trigger sample (value 5 at 1 ms before the
rising edge), then a rising edge and a capture that runs past the window. -/
def preTriggerSamples : List RawSample :=
  [{ timestamp := 0, worker_state := 0, measurements := [5] },
   { timestamp := 1000000, worker_state := 1, measurements := [3] },
   { timestamp := 2000000, worker_state := 1, measurements := [4] },
   { timestamp := 3000000, worker_state := 0, measurements := [6] }]

/-- C1 counterexample: the pre-trigger sample (value 5, taken 1 ms before
the trigger at t = 1 ms) satisfies the claim's condition: its bin
(timestamp - trigger_time in whole ms) + window_before_ms = -1 + 2 = 1 lies
in [0, num_bins).  The claim demands 5 to be back-filled into bins[0][1],
but after the capture completes bins[0][1] is empty: there is no sample
history and pre-trigger bins are never filled. -/
theorem eye_capture_no_pretrigger_backfill :
    msBetween 0 1000000 + smallStorage.zero_offset_bins = 1
    ∧ (0:ℤ) ≤ 1 ∧ (1:ℤ) < smallStorage.num_bins
    ∧ ((EyeCapturer.runSamples idleCapturer preTriggerSamples).storage.bins.getD 0 []).getD 1 []
        = []
    ∧ ¬ ((5:ℚ) ∈
        ((EyeCapturer.runSamples idleCapturer preTriggerSamples).storage.bins.getD 0 []).getD 1 []) := by
  decide

/-- Processor configuration with a 2 ms window tracking sensor 0. -/
def evictionCfg : GuiConfig := { period_ms := 2, interesting_index := [0] }

/-- Fresh processor state with per-bin cap 1. -/
def evictionInit : ProcState :=
  { state := .idle
    last_rise_time := 0
    current_trace := []
    buffer := [[[], []]]
    displays := [{}]
    max_accumulations := 1 }

/-- Two samples landing in the same millisecond bin, then a sample past the
window that triggers finalization. -/
def evictionSamples : List RawSample :=
  [{ timestamp := 1000000, worker_state := 1, measurements := [3] },
   { timestamp := 1500000, worker_state := 1, measurements := [4] },
   { timestamp := 3100000, worker_state := 0, measurements := [6] }]

/-- C3 counterexample: with max_accumulations = 1, two trace samples fall
into bin 0 during one finalization; the value 3 is newly pushed there, yet
FIFO eviction drops it (the final cell is [4]).  This falsifies the claim's
"a newly pushed value is never the one dropped". -/
theorem gui_eviction_drops_new_value :
    (3:ℚ) ∈ traceValuesForCell [0] 2 1000000 0 0
        [{ timestamp := 1000000, worker_state := 1, measurements := [3] },
         { timestamp := 1500000, worker_state := 1, measurements := [4] }]
    ∧ cellAt (runProcessing evictionCfg evictionInit evictionSamples).buffer 0 0 = [4]
    ∧ ¬ ((3:ℚ) ∈ cellAt (runProcessing evictionCfg evictionInit evictionSamples).buffer 0 0) := by
  decide

/-- Processor configuration with a 5 ms window tracking sensor 0. -/
def midEdgeCfg : GuiConfig := { period_ms := 5, interesting_index := [0] }

/-- Fresh processor state for the mid-capture-edge run. -/
def midEdgeInit : ProcState :=
  { state := .idle
    last_rise_time := 0
    current_trace := []
    buffer := [[[], [], [], [], []]]
    displays := [{}]
    max_accumulations := 30 }

/-- Rising edge at t = 1 ms, phase 0 at t = 2 ms, then a new rising edge of
the worker phase at t = 3 ms while the capture window (5 ms) is still open. -/
def midEdgeSamples : List RawSample :=
  [{ timestamp := 1000000, worker_state := 1, measurements := [1] },
   { timestamp := 2000000, worker_state := 0, measurements := [2] },
   { timestamp := 3000000, worker_state := 1, measurements := [3] }]

/-- C5 counterexample: the sample at t = 3 ms is a rising worker-phase edge
(its predecessor had phase 0) arriving while the processor is CAPTURING and
before window_after_ms has elapsed.  The claim demands trigger_time to be
reset to 3 ms and current_trace cleared; the processor instead keeps
trigger_time = 1 ms and appends the sample (trace length 3). -/
theorem gui_midcapture_edge_ignored :
    (runProcessing midEdgeCfg midEdgeInit midEdgeSamples).state = CapState.capturing
    ∧ (runProcessing midEdgeCfg midEdgeInit midEdgeSamples).last_rise_time = 1000000
    ∧ (runProcessing midEdgeCfg midEdgeInit midEdgeSamples).current_trace.length = 3
    ∧ ¬ ((runProcessing midEdgeCfg midEdgeInit midEdgeSamples).last_rise_time = 3000000
        ∧ (runProcessing midEdgeCfg midEdgeInit midEdgeSamples).current_trace = []) := by
  decide

/-! ### Snapshot consistency (claim C2) -/

/-- The per-snapshot consistency invariant: the four plotted vectors have
equal length and min <= mean <= max holds entrywise. -/
def displayInv (d : DisplayData) : Prop :=
  d.x_data.length = d.y_data_mean.length
  ∧ d.x_data.length = d.y_data_min.length
  ∧ d.x_data.length = d.y_data_max.length
  ∧ ∀ k : ℕ, k < d.x_data.length →
      d.y_data_min.getD k 0 ≤ d.y_data_mean.getD k 0
      ∧ d.y_data_mean.getD k 0 ≤ d.y_data_max.getD k 0

/-- The emitted-bins invariant relative to an accumulation row: every x
entry is the index of a non-empty bin below nb. -/
def emittedInv (row : List (List ℚ)) (nb : ℕ) (d : DisplayData) : Prop :=
  ∀ k : ℕ, k < d.x_data.length →
    ∃ b : ℕ, b < nb ∧ d.x_data.getD k 0 = (b : ℚ) ∧ row.getD b [] ≠ []

theorem getD_append_last {l : List ℚ} {a : ℚ} :
    (l ++ [a]).getD l.length 0 = a := by
  rw [List.getD_append_right _ _ _ _ le_rfl, Nat.sub_self]
  rfl

theorem populate_fold_inv (row : List (List ℚ)) (nb : ℕ) (bs : List ℕ)
    (hbs : ∀ i ∈ bs, i < nb) (d : DisplayData)
    (hd : displayInv d) (he : emittedInv row nb d) :
    displayInv (bs.foldl
      (fun d bin_idx =>
        let bin_deque := row.getD bin_idx []
        if bin_deque ≠ [] then
          { d with
            x_data := d.x_data ++ [(bin_idx : ℚ)]
            y_data_mean := d.y_data_mean ++ [calculate_trimmed_mean bin_deque 10]
            y_data_min := d.y_data_min ++ [listMin bin_deque]
            y_data_max := d.y_data_max ++ [listMax bin_deque]
            accumulation_count := bin_deque.length }
        else d) d)
    ∧ emittedInv row nb (bs.foldl
      (fun d bin_idx =>
        let bin_deque := row.getD bin_idx []
        if bin_deque ≠ [] then
          { d with
            x_data := d.x_data ++ [(bin_idx : ℚ)]
            y_data_mean := d.y_data_mean ++ [calculate_trimmed_mean bin_deque 10]
            y_data_min := d.y_data_min ++ [listMin bin_deque]
            y_data_max := d.y_data_max ++ [listMax bin_deque]
            accumulation_count := bin_deque.length }
        else d) d) := by
  induction bs generalizing d with
  | nil => exact ⟨hd, he⟩
  | cons b bs ih =>
      rw [List.foldl_cons]
      dsimp only
      by_cases hne : row.getD b [] ≠ []
      · rw [if_pos hne]
        refine ih (fun i hi => hbs i (List.mem_cons_of_mem _ hi)) _ ⟨?_, ?_, ?_, ?_⟩ ?_
        · simp [hd.1]
        · simp [hd.2.1]
        · simp [hd.2.2.1]
        · intro k hk
          simp only [List.length_append, List.length_singleton] at hk
          by_cases hklt : k < d.x_data.length
          · rw [List.getD_append _ _ _ _ (by rw [← hd.2.1]; exact hklt),
              List.getD_append _ _ _ _ (by rw [← hd.1]; exact hklt),
              List.getD_append _ _ _ _ (by rw [← hd.2.2.1]; exact hklt)]
            exact hd.2.2.2 k hklt
          · have hk1 : k = d.x_data.length := by omega
            obtain ⟨h1, h2⟩ := trimmed_mean_between (row.getD b []) 10 hne
            have e1 : (d.y_data_min ++ [listMin (row.getD b [])]).getD k 0
                = listMin (row.getD b []) := by
              rw [hk1, hd.2.1]
              exact getD_append_last
            have e2 : (d.y_data_mean ++ [calculate_trimmed_mean (row.getD b []) 10]).getD k 0
                = calculate_trimmed_mean (row.getD b []) 10 := by
              rw [hk1, hd.1]
              exact getD_append_last
            have e3 : (d.y_data_max ++ [listMax (row.getD b [])]).getD k 0
                = listMax (row.getD b []) := by
              rw [hk1, hd.2.2.1]
              exact getD_append_last
            rw [e1, e2, e3]
            exact ⟨h1, h2⟩
        · intro k hk
          simp only [List.length_append, List.length_singleton] at hk
          by_cases hklt : k < d.x_data.length
          · rw [List.getD_append _ _ _ _ hklt]
            exact he k hklt
          · have hk1 : k = d.x_data.length := by omega
            refine ⟨b, hbs b (List.mem_cons_self b bs), ?_, hne⟩
            rw [hk1]
            exact getD_append_last
      · rw [if_neg hne]
        exact ih (fun i hi => hbs i (List.mem_cons_of_mem _ hi)) d hd he

theorem populateDisplay_inv (row : List (List ℚ)) (nb : ℕ) (period : ℤ)
    (old : DisplayData) :
    displayInv (populateDisplay row nb period old)
    ∧ emittedInv row nb (populateDisplay row nb period old) := by
  unfold populateDisplay
  refine populate_fold_inv row nb (List.range nb) (fun i hi => List.mem_range.mp hi) _
    ⟨rfl, rfl, rfl, fun k hk => absurd hk (by simp)⟩
    (fun k hk => absurd hk (by simp))

theorem displayInv_default : displayInv {} :=
  ⟨rfl, rfl, rfl, fun k hk => absurd hk (by simp)⟩

/-- The per-state invariant: every slot of the displays list (including the
default out-of-range value) satisfies displayInv. -/
def displaysInv (st : ProcState) : Prop :=
  ∀ i : ℕ, displayInv (st.displays.getD i {})

theorem displayInv_map_populate (buf : List (List (List ℚ))) (nb : ℕ)
    (period : ℤ) (olds : List DisplayData) (n i : ℕ) :
    displayInv (((List.range n).map
      (fun i => populateDisplay (buf.getD i []) nb period (olds.getD i {}))).getD i {}) := by
  by_cases hi : i < n
  · rw [List.getD_eq_getElem _ _ (by simpa using hi), List.getElem_map,
      List.getElem_range]
    exact (populateDisplay_inv _ _ _ _).1
  · rw [List.getD_eq_default _ _ (by simpa using Nat.le_of_not_lt hi)]
    exact displayInv_default

theorem displaysInv_processSample (cfg : GuiConfig) (st : ProcState)
    (s : RawSample) (h : displaysInv st) : displaysInv (processSample cfg st s) := by
  intro i
  unfold processSample
  dsimp only
  by_cases hedge : s.worker_state = 1 ∧ st.state = CapState.idle
  · rw [if_pos hedge]
    dsimp only
    rw [if_pos (rfl : CapState.capturing = CapState.capturing)]
    by_cases hw : 0 ≤ msBetween s.timestamp s.timestamp
        ∧ msBetween s.timestamp s.timestamp < cfg.period_ms
    · rw [if_pos hw]
      exact h i
    · rw [if_neg hw]
      exact displayInv_map_populate _ _ _ _ _ i
  · rw [if_neg hedge]
    by_cases hst : st.state = CapState.capturing
    · rw [if_pos hst]
      by_cases hw : 0 ≤ msBetween s.timestamp st.last_rise_time
          ∧ msBetween s.timestamp st.last_rise_time < cfg.period_ms
      · rw [if_pos hw]
        exact h i
      · rw [if_neg hw]
        exact displayInv_map_populate _ _ _ _ _ i
    · rw [if_neg hst]
      exact h i

theorem displaysInv_foldl (cfg : GuiConfig) (samples : List RawSample) :
    ∀ st : ProcState, displaysInv st → displaysInv (samples.foldl (processSample cfg) st) := by
  induction samples with
  | nil => exact fun st h => h
  | cons s samples ih =>
      intro st h
      rw [List.foldl_cons]
      exact ih _ (displaysInv_processSample cfg st s h)

theorem displaysInv_init (cfg : GuiConfig) (maxAcc : ℤ) :
    displaysInv (initProcState cfg maxAcc) := by
  intro i
  unfold initProcState
  dsimp only
  by_cases hi : i < cfg.interesting_index.length
  · rw [List.getD_eq_getElem _ _ (by simpa using hi), List.getElem_replicate]
    exact displayInv_default
  · rw [List.getD_eq_default _ _ (by simpa using Nat.le_of_not_lt hi)]
    exact displayInv_default

/-- C2 (confirmed): every per-sensor display snapshot produced by a
finalization has x, y_mean, y_min and y_max of equal length, emits an entry
only for bins holding at least one observation, and satisfies
y_min[k] <= y_mean[k] <= y_max[k] for every index k (the trimmed mean of a
non-empty bin lies between that bin's minimum and maximum); consequently
every displays slot of any processor run from the initial state satisfies
the numeric invariant. -/
theorem display_snapshot_consistency :
    (∀ (row : List (List ℚ)) (nb : ℕ) (period : ℤ) (old : DisplayData),
      displayInv (populateDisplay row nb period old)
      ∧ emittedInv row nb (populateDisplay row nb period old))
    ∧ ∀ (cfg : GuiConfig) (maxAcc : ℤ) (samples : List RawSample) (i : ℕ),
        displayInv ((runProcessing cfg (initProcState cfg maxAcc) samples).displays.getD i {}) :=
  ⟨populateDisplay_inv,
    fun cfg maxAcc samples i =>
      displaysInv_foldl cfg samples (initProcState cfg maxAcc) (displaysInv_init cfg maxAcc) i⟩

/-! ### Correlation engine (src/ryzen_pm_table_moonitor/src/analysis_manager.cpp) -/

/-- One entry of a cell's top_correlations list. -/
structure CoreCorrelationInfo where
  core_id : ℤ
  correlation_strength : ℚ
  correlation_quality : ℚ
deriving DecidableEq

/-- The descending-by-strength ordering used by the std::sort comparator. -/
def descR (a b : CoreCorrelationInfo) : Prop :=
  b.correlation_strength ≤ a.correlation_strength

instance : DecidableRel descR := fun a b =>
  inferInstanceAs (Decidable (b.correlation_strength ≤ a.correlation_strength))

instance : IsTotal CoreCorrelationInfo descR :=
  ⟨fun a b => le_total b.correlation_strength a.correlation_strength⟩

instance : IsTrans CoreCorrelationInfo descR :=
  ⟨fun _ _ _ hab hbc => le_trans hbc hab⟩

/-- find_if for the entry of core_id followed by an in-place strength update,
or push_back of a new entry with quality 1.0 when none exists. -/
def updateFirst : List CoreCorrelationInfo → ℤ → ℚ → List CoreCorrelationInfo
  | [], core_id, s => [{ core_id := core_id, correlation_strength := s, correlation_quality := 1 }]
  | e :: rest, core_id, s =>
      if e.core_id = core_id then { e with correlation_strength := s } :: rest
      else e :: updateFirst rest core_id s

/-- AnalysisManager::update_or_insert_correlation: update or insert the entry
for core_id, sort descending by strength, keep only the top 4. -/
def update_or_insert_correlation (tc : List CoreCorrelationInfo) (core_id : ℤ)
    (new_strength : ℚ) : List CoreCorrelationInfo :=
  let sorted := List.insertionSort descR (updateFirst tc core_id new_strength)
  if sorted.length > 4 then sorted.take 4 else sorted

/-- The pre-sqrt correlation strength computed in run_correlation_analysis:
max(0, (active - baseline) / (active + baseline + 1e-9)), guarded by a
positivity check of the denominator (strength stays 0 otherwise). -/
def rawStrength (active baseline : ℚ) : ℚ :=
  let denominator := active + baseline + 1 / 1000000000
  if 0 < denominator then max 0 ((active - baseline) / denominator) else 0

/-- The cumulative effect of a correlation run on one cell's
top_correlations: the initialization clears the list, then each periodic
update calls update_or_insert_correlation with a core id and a strength. -/
def runCorrelationUpdates (events : List (ℤ × ℚ)) : List CoreCorrelationInfo :=
  events.foldl (fun tc e => update_or_insert_correlation tc e.1 e.2) []

/-- The claimed invariant of a top_correlations list. -/
def topCorrInvariant (tc : List CoreCorrelationInfo) : Prop :=
  tc.length ≤ 4 ∧ List.Sorted descR tc
  ∧ ∀ e ∈ tc, 0 ≤ e.correlation_strength ∧ e.correlation_strength ≤ 1
      ∧ 0 ≤ e.correlation_quality ∧ e.correlation_quality ≤ 1

theorem mem_updateFirst {tc : List CoreCorrelationInfo} {c : ℤ} {s : ℚ}
    {e : CoreCorrelationInfo} (he : e ∈ updateFirst tc c s) :
    (∃ e0 ∈ tc, e.correlation_quality = e0.correlation_quality
      ∧ (e.correlation_strength = e0.correlation_strength ∨ e.correlation_strength = s))
    ∨ e = { core_id := c, correlation_strength := s, correlation_quality := 1 } := by
  induction tc with
  | nil =>
      rw [updateFirst, List.mem_singleton] at he
      exact Or.inr he
  | cons e0 rest ih =>
      rw [updateFirst] at he
      by_cases h0 : e0.core_id = c
      · rw [if_pos h0, List.mem_cons] at he
        rcases he with he | he
        · exact Or.inl ⟨e0, List.mem_cons_self _ _, by rw [he], Or.inr (by rw [he])⟩
        · exact Or.inl ⟨e, List.mem_cons_of_mem _ he, rfl, Or.inl rfl⟩
      · rw [if_neg h0, List.mem_cons] at he
        rcases he with he | he
        · exact Or.inl ⟨e0, List.mem_cons_self _ _, by rw [he], Or.inl (by rw [he])⟩
        · rcases ih he with ⟨e1, he1, hq, hs⟩ | hnew
          · exact Or.inl ⟨e1, List.mem_cons_of_mem _ he1, hq, hs⟩
          · exact Or.inr hnew

theorem topCorrInvariant_update {tc : List CoreCorrelationInfo} {c : ℤ} {s : ℚ}
    (hb : ∀ e ∈ tc, 0 ≤ e.correlation_strength ∧ e.correlation_strength ≤ 1
      ∧ 0 ≤ e.correlation_quality ∧ e.correlation_quality ≤ 1)
    (hs0 : 0 ≤ s) (hs1 : s ≤ 1) :
    topCorrInvariant (update_or_insert_correlation tc c s) := by
  have hmem : ∀ e ∈ update_or_insert_correlation tc c s, e ∈ updateFirst tc c s := by
    intro e he
    unfold update_or_insert_correlation at he
    have hsub : e ∈ List.insertionSort descR (updateFirst tc c s) := by
      by_cases hlen : (List.insertionSort descR (updateFirst tc c s)).length > 4
      · rw [if_pos hlen] at he
        exact (List.take_sublist _ _).subset he
      · rw [if_neg hlen] at he
        exact he
    exact (List.perm_insertionSort descR _).subset hsub
  have hsorted : List.Sorted descR (update_or_insert_correlation tc c s) := by
    unfold update_or_insert_correlation
    have h1 : List.Sorted descR (List.insertionSort descR (updateFirst tc c s)) :=
      List.sorted_insertionSort descR _
    by_cases hlen : (List.insertionSort descR (updateFirst tc c s)).length > 4
    · rw [if_pos hlen]
      exact List.Pairwise.sublist (List.take_sublist _ _) h1
    · rw [if_neg hlen]
      exact h1
  have hlen4 : (update_or_insert_correlation tc c s).length ≤ 4 := by
    unfold update_or_insert_correlation
    by_cases hlen : (List.insertionSort descR (updateFirst tc c s)).length > 4
    · rw [if_pos hlen, List.length_take]
      omega
    · rw [if_neg hlen]
      omega
  refine ⟨hlen4, hsorted, ?_⟩
  intro e he
  rcases mem_updateFirst (hmem e he) with ⟨e0, he0, hq, hst⟩ | hnew
  · obtain ⟨h1, h2, h3, h4⟩ := hb e0 he0
    rcases hst with hst | hst
    · exact ⟨hst ▸ h1, hst ▸ h2, hq ▸ h3, hq ▸ h4⟩
    · exact ⟨hst ▸ hs0, hst ▸ hs1, hq ▸ h3, hq ▸ h4⟩
  · rw [hnew]
    exact ⟨hs0, hs1, by norm_num, by norm_num⟩

/-- C6 (confirmed): top_correlations always satisfies its invariant during
and after a correlation run: entries have strength and quality in [0,1],
the list is sorted descending by strength and holds at most 4 entries;
update_or_insert_correlation is update-or-insert then sort-descending then
truncate-to-4; and the computed strength sqrt(max(0,(a-b)/(a+b+1e-9))) lies
in [0,1] for non-negative standard deviations a, b. -/
theorem correlation_top_invariant :
    (∀ events : List (ℤ × ℚ), (∀ p ∈ events, 0 ≤ p.2 ∧ p.2 ≤ 1) →
      topCorrInvariant (runCorrelationUpdates events))
    ∧ (∀ (tc : List CoreCorrelationInfo) (c : ℤ) (s : ℚ),
        update_or_insert_correlation tc c s
          = (List.insertionSort descR (updateFirst tc c s)).take 4)
    ∧ (∀ a b : ℚ, 0 ≤ a → 0 ≤ b →
        0 ≤ Real.sqrt ((rawStrength a b : ℚ) : ℝ)
        ∧ Real.sqrt ((rawStrength a b : ℚ) : ℝ) ≤ 1) := by
  refine ⟨?_, ?_, ?_⟩
  · intro events hev
    have hgen : ∀ (evs : List (ℤ × ℚ)) (tc : List CoreCorrelationInfo),
        (∀ p ∈ evs, 0 ≤ p.2 ∧ p.2 ≤ 1) →
        (∀ e ∈ tc, 0 ≤ e.correlation_strength ∧ e.correlation_strength ≤ 1
          ∧ 0 ≤ e.correlation_quality ∧ e.correlation_quality ≤ 1) →
        topCorrInvariant tc →
        topCorrInvariant (evs.foldl (fun tc e => update_or_insert_correlation tc e.1 e.2) tc) := by
      intro evs
      induction evs with
      | nil => exact fun tc _ _ h => h
      | cons p evs ih =>
          intro tc hev hb _hinv
          rw [List.foldl_cons]
          obtain ⟨hp0, hp1⟩ := hev p (List.mem_cons_self _ _)
          have hstep := @topCorrInvariant_update tc p.1 p.2 hb hp0 hp1
          exact ih _ (fun q hq => hev q (List.mem_cons_of_mem _ hq)) hstep.2.2 hstep
    exact hgen events [] hev (fun e he => absurd he (List.not_mem_nil e))
      ⟨by simp, List.sorted_nil, fun e he => absurd he (List.not_mem_nil e)⟩
  · intro tc c s
    unfold update_or_insert_correlation
    by_cases hlen : (List.insertionSort descR (updateFirst tc c s)).length > 4
    · rw [if_pos hlen]
    · rw [if_neg hlen, List.take_of_length_le (by omega)]
  · intro a b ha hb
    have heps : (0:ℚ) < 1 / 1000000000 := by norm_num
    have hden : 0 < a + b + 1 / 1000000000 := by linarith
    have hraw0 : 0 ≤ rawStrength a b := by
      unfold rawStrength
      rw [if_pos hden]
      exact le_max_left 0 _
    have hraw1 : rawStrength a b ≤ 1 := by
      unfold rawStrength
      rw [if_pos hden]
      rw [max_le_iff]
      refine ⟨by norm_num, ?_⟩
      rw [div_le_one hden]
      linarith
    constructor
    · exact Real.sqrt_nonneg _
    · rw [Real.sqrt_le_one]
      exact_mod_cast hraw1

/-- Witness for correlation_top_invariant: two update events with strengths
1 and 0, and the strength bound instantiated at stddevs 1 and 0. -/
theorem correlation_top_invariant_witness :
    ((∀ p ∈ ([((0:ℤ), (1:ℚ)), ((1:ℤ), (0:ℚ))] : List (ℤ × ℚ)), 0 ≤ p.2 ∧ p.2 ≤ 1)
      ∧ (0:ℚ) ≤ 1 ∧ (0:ℚ) ≤ 0)
    ∧ topCorrInvariant (runCorrelationUpdates [((0:ℤ), (1:ℚ)), ((1:ℤ), (0:ℚ))])
    ∧ (0 ≤ Real.sqrt ((rawStrength 1 0 : ℚ) : ℝ)
      ∧ Real.sqrt ((rawStrength 1 0 : ℚ) : ℝ) ≤ 1) :=
  ⟨⟨by decide, by decide, by decide⟩,
    correlation_top_invariant.1 [((0:ℤ), (1:ℚ)), ((1:ℤ), (0:ℚ))] (by decide),
    correlation_top_invariant.2.2 1 0 (by decide) (by decide)⟩

/-! ### PmTableReader construction (src/reader/pm_table_reader.cpp) -/

/-- read_sysfs_uint64: throws (typed failure) when the sysfs file cannot be
opened or read, otherwise returns the 64-bit value.  The sysfs resource is
modelled as an optional value. -/
def read_sysfs_uint64 (sysfs : Option ℕ) : Except String ℕ :=
  match sysfs with
  | none => .error "Failed to open or read sysfs file"
  | some v => .ok v

/-- The reader: the discovered pm_table size, plus whether the constructor
emitted the invalid-size error log. -/
structure PmTableReader where
  pm_table_size : ℕ
  logged_invalid_size : Bool
deriving DecidableEq

/-- The PmTableReader constructor: reads the size from sysfs (propagating
its typed failure), checks the sanity bound 0 < size <= 16384 but only
logs a violation, and completes construction regardless. -/
def PmTableReader.construct (sysfs_size : Option ℕ) : Except String PmTableReader :=
  match read_sysfs_uint64 sysfs_size with
  | .error e => .error e
  | .ok size =>
      .ok { pm_table_size := size
            logged_invalid_size := decide (size = 0 ∨ size > 16384) }

/-- C7 counterexample: a successfully read size of 20000 bytes violates the
sanity bound (20000 > 16384), yet construction succeeds and returns a
usable reader: the violation is only logged, contradicting the claim that
no usable reader is produced for any size above the bound. -/
theorem pm_reader_oversize_constructs :
    PmTableReader.construct (some 20000)
      = Except.ok { pm_table_size := 20000, logged_invalid_size := true }
    ∧ 16384 < 20000 := by
  exact ⟨rfl, by norm_num⟩

/-- C7 (corrected, amended claim): construction surfaces a typed failure
exactly when the sysfs size read itself fails; every successfully read
size, in or out of the sanity bound 0 < size <= 16384, yields a reader
carrying that size, and an out-of-bound size is merely recorded by an
error log. -/
theorem pm_reader_construction_behavior :
    (∀ o : Option ℕ, (PmTableReader.construct o).isOk = o.isSome)
    ∧ (∀ v : ℕ, PmTableReader.construct (some v)
        = Except.ok { pm_table_size := v, logged_invalid_size := decide (v = 0 ∨ v > 16384) })
    ∧ PmTableReader.construct none = Except.error "Failed to open or read sysfs file" := by
  refine ⟨?_, fun v => rfl, rfl⟩
  intro o
  cases o with
  | none => rfl
  | some v => rfl

/-! ### Mode-A worker bursts (worker_thread_func, src/reader/measure.cpp) -/

/-- The chronological sequence of stores to the shared worker-phase atomic
during a Mode-A burst: each cycle stores 1 at the start of its busy phase
and 0 before its idle sleep. -/
def workerStores : ℕ → List ℤ
  | 0 => []
  | n + 1 => workerStores n ++ [1, 0]

/-- The value of the worker-phase atomic after the burst: the last store,
or the initial value when no cycle ran. -/
def workerFinalPhase (initial : ℤ) (num_cycles : ℕ) : ℤ :=
  (workerStores num_cycles).getLastD initial

/-- C8 (confirmed): every Mode-A burst with at least one cycle leaves the
shared worker-phase atomic at 0: the last store of the burst is the 0
written before the final idle sleep. -/
theorem worker_burst_ends_phase_zero (initial : ℤ) (num_cycles : ℕ)
    (h : 1 ≤ num_cycles) : workerFinalPhase initial num_cycles = 0 := by
  cases num_cycles with
  | zero => omega
  | succ n =>
      unfold workerFinalPhase workerStores
      have hsplit : workerStores n ++ [1, 0] = (workerStores n ++ [1]) ++ [0] := by
        simp
      rw [hsplit, List.getLastD_concat]

/-- Witness for worker_burst_ends_phase_zero at a 3-cycle burst starting
from phase 5. -/
theorem worker_burst_ends_phase_zero_witness :
    1 ≤ 3 ∧ workerFinalPhase 5 3 = 0 :=
  ⟨by decide, worker_burst_ends_phase_zero 5 3 (by decide)⟩
